import Mathlib

/-!
Verification of the tag-aware regex engine of `regex_processor.py`
(`RegexProcessor`: `_extract_text_segments`, `_reconstruct_text`,
`_map_to_original_position`, `find_in_text`, `replace_in_text`,
`validate_pattern`).

Strings are modelled as `List Char`; positions as `Nat`.  The underlying
regex engine (`re` / `regex`) is modelled abstractly: `find_in_text` takes
the compiled pattern's `finditer` behaviour as a function argument, and
`replace_in_text` takes the compiled pattern's `sub`-with-count,
`sub`-unlimited and `findall`-count behaviours as function arguments; an
engine failure (e.g. a pattern that does not compile) is an
`Except.error`, mirroring a raised exception.  Concrete patterns used by
the spec's examples (a literal character, a literal substring, `\d+`,
`(\w)(\w)`, the exclude alternation `19\d{2}|20\d{2}`) are implemented as
concrete instances of those behaviours.  The character classes `\d`,
`[a-zA-Z]` and `\w` are modelled over ASCII.

The tag recognizer embeds the Python pattern

  `(?:<[^<>]*>|&lt;(?:[^&]|&[a-zA-Z]+;|&#\d+;)*?&gt;|&amp;lt;(?:[^&]|&(?:amp|quot|lt|gt|#\d+);)*?&amp;gt;)`

The three alternatives start with pairwise incompatible literal prefixes,
and every quantified sub-expression either excludes its follow character
from its class or is a lazy loop whose exit and step alternatives are
mutually exclusive at each position, so Python's backtracking search is
equivalent to the deterministic scanners below.  Recursions that consume a
computed number of characters per step carry an explicit fuel argument
(initialised to the list length) so that every definition is structural
and evaluates by `decide`.
-/

namespace RegexProc

/-- Number of leading ASCII letters (the `[a-zA-Z]+` run). -/
def lettersRun : List Char → Nat
  | c :: cs => if c.isAlpha then lettersRun cs + 1 else 0
  | [] => 0

/-- Number of leading ASCII digits (the `\d+` run). -/
def digitsRun : List Char → Nat
  | c :: cs => if c.isDigit then digitsRun cs + 1 else 0
  | [] => 0

/-- Recognize `<[^<>]*>` after the initial `<` has been consumed:
the greedy class run ends at the first `<` or `>`, which must be `>`. -/
def angleAux : List Char → Option Nat
  | [] => none
  | c :: cs =>
    if c = '>' then some 1
    else if c = '<' then none
    else (angleAux cs).map (· + 1)

/-- Recognize a full `<[^<>]*>` tag at the head of the list,
returning the number of characters it spans. -/
def tryAngle : List Char → Option Nat
  | '<' :: cs => (angleAux cs).map (· + 1)
  | _ => none

/-- Recognize the unit `&[a-zA-Z]+;` or `&#\d+;` at the head of the list
(the entity references allowed inside a once-escaped tag). -/
def tryEntity : List Char → Option Nat
  | '&' :: rest =>
    if 0 < lettersRun rest then
      match rest.drop (lettersRun rest) with
      | ';' :: _ => some (lettersRun rest + 2)
      | _ => none
    else
      match rest with
      | '#' :: ds =>
        if 0 < digitsRun ds then
          match ds.drop (digitsRun ds) with
          | ';' :: _ => some (digitsRun ds + 3)
          | _ => none
        else none
      | _ => none
  | _ => none

/-- Recognize the unit `&(?:amp|quot|lt|gt|#\d+);` at the head of the list
(the restricted entity set allowed inside a twice-escaped tag). -/
def tryEntityTwo : List Char → Option Nat
  | '&' :: 'a' :: 'm' :: 'p' :: ';' :: _ => some 5
  | '&' :: 'q' :: 'u' :: 'o' :: 't' :: ';' :: _ => some 6
  | '&' :: 'l' :: 't' :: ';' :: _ => some 4
  | '&' :: 'g' :: 't' :: ';' :: _ => some 4
  | '&' :: '#' :: ds =>
    if 0 < digitsRun ds then
      match ds.drop (digitsRun ds) with
      | ';' :: _ => some (digitsRun ds + 3)
      | _ => none
    else none
  | _ => none

/-- The lazy body of `&lt; ... &gt;` after the `&lt;` prefix: at each step
first try the exit `&gt;`, else consume one unit.  The fuel argument is
initialised to the list length by the caller. -/
def onceAuxF : Nat → List Char → Option Nat
  | _, '&' :: 'g' :: 't' :: ';' :: _ => some 4
  | fuel + 1, c :: cs =>
    if c = '&' then
      match tryEntity (c :: cs) with
      | some n => (onceAuxF fuel ((c :: cs).drop n)).map (· + n)
      | none => none
    else (onceAuxF fuel cs).map (· + 1)
  | _, _ => none

/-- Recognize a full once-escaped tag `&lt;(?:[^&]|&[a-zA-Z]+;|&#\d+;)*?&gt;`
at the head of the list. -/
def tryOnce : List Char → Option Nat
  | '&' :: 'l' :: 't' :: ';' :: rest => (onceAuxF rest.length rest).map (· + 4)
  | _ => none

/-- The lazy body of `&amp;lt; ... &amp;gt;` after the `&amp;lt;` prefix. -/
def twiceAuxF : Nat → List Char → Option Nat
  | _, '&' :: 'a' :: 'm' :: 'p' :: ';' :: 'g' :: 't' :: ';' :: _ => some 8
  | fuel + 1, c :: cs =>
    if c = '&' then
      match tryEntityTwo (c :: cs) with
      | some n => (twiceAuxF fuel ((c :: cs).drop n)).map (· + n)
      | none => none
    else (twiceAuxF fuel cs).map (· + 1)
  | _, _ => none

/-- Recognize a full twice-escaped tag
`&amp;lt;(?:[^&]|&(?:amp|quot|lt|gt|#\d+);)*?&amp;gt;` at the head of the list. -/
def tryTwice : List Char → Option Nat
  | '&' :: 'a' :: 'm' :: 'p' :: ';' :: 'l' :: 't' :: ';' :: rest =>
    (twiceAuxF rest.length rest).map (· + 8)
  | _ => none

/-- The composite tag recognizer: the three alternatives of `tag_pattern`
tried in order (their leading literals are mutually exclusive). -/
def tryTag (cs : List Char) : Option Nat :=
  match tryAngle cs with
  | some n => some n
  | none =>
    match tryOnce cs with
    | some n => some n
    | none => tryTwice cs

/-- The `re.finditer(tag_pattern, text)` loop of `_extract_text_segments`:
walk the text left to right; `gap` accumulates (reversed) the characters
since the last recognized tag; a segment is appended only when the gap is
non-empty (`if match.start() > current_pos`), and the trailing gap is
appended only when non-empty (`if current_pos < len(text)`).  Tag spans are
`(start, end, literal)` in original coordinates.  Fuel is initialised to
the list length. -/
def extractLoopF : Nat → List Char → Nat → List Char →
    List (List Char) × List (Nat × Nat × List Char)
  | _, [], _, gap => (if gap.isEmpty then [] else [gap.reverse], [])
  | 0, _ :: _, _, gap => (if gap.isEmpty then [] else [gap.reverse], [])
  | fuel + 1, c :: cs, pos, gap =>
    match tryTag (c :: cs) with
    | some n =>
      let r := extractLoopF fuel ((c :: cs).drop n) (pos + n) []
      ((if gap.isEmpty then r.1 else gap.reverse :: r.1),
        (pos, pos + n, (c :: cs).take n) :: r.2)
    | none => extractLoopF fuel cs (pos + 1) (c :: gap)

/-- `RegexProcessor._extract_text_segments`. -/
def extract_text_segments (text : List Char) :
    List (List Char) × List (Nat × Nat × List Char) :=
  extractLoopF text.length text 0 []

/-- `RegexProcessor._reconstruct_text`: interleave segments with tag
literals; tag `i` is appended after segment `i` only while segments last
(the `original_text` argument of the source is unused there). -/
def reconstruct_text : List (List Char) → List (Nat × Nat × List Char) → List Char
  | [], _ => []
  | s :: ss, [] => s ++ reconstruct_text ss []
  | s :: ss, t :: ts => s ++ t.2.2 ++ reconstruct_text ss ts

/-- The loop of `RegexProcessor._map_to_original_position`: `cc` is
`char_count`, `op` is `original_pos`; the tag parallel to the current
segment (tag `i` for segment `i`) contributes its literal length when the
segment is passed over. -/
def mapPosAux : Nat → List (List Char) → List (Nat × Nat × List Char) → Nat → Nat → Nat
  | _, [], _, _, op => op
  | q, s :: ss, ts, cc, op =>
    if q ≤ cc + s.length then op + (q - cc)
    else
      mapPosAux q ss ts.tail (cc + s.length)
        (op + s.length + (match ts with | [] => 0 | t :: _ => t.2.2.length))

/-- `RegexProcessor._map_to_original_position`. -/
def map_to_original_position (plain_pos : Nat) (segs : List (List Char))
    (tags : List (Nat × Nat × List Char)) : Nat :=
  mapPosAux plain_pos segs tags 0 0

/-- Concatenation of all text segments: the plain view
(`''.join(text_segments)`). -/
def joinAll : List (List Char) → List Char
  | [] => []
  | s :: ss => s ++ joinAll ss

/-- `RegexProcessor.find_in_text` with `ignore_tags=True`.  `fi` is the
compiled pattern's `finditer` behaviour on a string (list of
`(start, end)` spans, or an error for a pattern the engine rejects); `ex`
is the compiled exclude pattern's anchored-`match` behaviour, when an
exclude pattern is given.  An engine error is caught and yields `[]`
(the `except` clause of the source). -/
def find_in_text (fi : List Char → Except String (List (Nat × Nat)))
    (ex : Option (List Char → Bool)) (text : List Char) :
    List (Nat × Nat × List Char) :=
  let segs := (extract_text_segments text).1
  let tags := (extract_text_segments text).2
  let plain := joinAll segs
  match fi plain with
  | .error _ => []
  | .ok ms =>
    ms.filterMap fun se =>
      let m := (plain.drop se.1).take (se.2 - se.1)
      if (match ex with | some exf => exf m | none => false) then none
      else some (map_to_original_position se.1 segs tags,
        map_to_original_position se.2 segs tags, m)

/-- `re.sub(r'\$(\d+)', r'\\\1', replacement)`: rewrite every
dollar-numeral backreference `$<digits>` to `\<digits>`, left to right.
The Bool flag is true while copying the digit run of a match just
started. -/
def dollarNormM : Bool → List Char → List Char
  | _, [] => []
  | _, '$' :: d :: rest2 =>
    if d.isDigit then '\\' :: d :: dollarNormM true rest2
    else '$' :: dollarNormM false (d :: rest2)
  | _, ['$'] => ['$']
  | inDig, c :: rest =>
    if inDig && c.isDigit then c :: dollarNormM true rest
    else c :: dollarNormM false rest

/-- The backreference normalization applied by `replace_in_text` to its
`replacement` argument before any substitution. -/
def dollarNorm (replacement : List Char) : List Char :=
  dollarNormM false replacement

/-- The per-segment loop of `replace_in_text` (`ignore_tags=True`, no
exclude pattern): `made` is `replacements_made`; the loop breaks when the
budget is exhausted, leaving the remaining segments verbatim; with a
positive remaining budget the segment is substituted with
`count=count_limit` and the loop adds `count_limit` itself (not the number
of substitutions performed) to the total; without a budget it substitutes
unlimited and counts matches with a `findall` pass over the original
segment. -/
def replaceSegsE (subC : List Char → Nat → List Char → Except String (List Char))
    (subA : List Char → List Char → Except String (List Char))
    (cnt : List Char → Except String Nat)
    (repl : List Char) (maxR : Nat) :
    Nat → List (List Char) → Except String (List (List Char) × Nat)
  | made, [] => .ok ([], made)
  | made, seg :: rest =>
    if 0 < maxR ∧ maxR ≤ made then .ok (seg :: rest, made)
    else
      let remaining := if 0 < maxR then maxR - made else 0
      let count_limit := if 0 < remaining then remaining else 0
      match (if 0 < count_limit then
          match subC repl count_limit seg with
          | .error e => Except.error e
          | .ok ns => Except.ok (ns, count_limit)
        else
          match subA repl seg with
          | .error e => Except.error e
          | .ok ns =>
            match cnt seg with
            | .error e => Except.error e
            | .ok c => Except.ok (ns, c)) with
      | .error e => Except.error e
      | .ok sr =>
        match replaceSegsE subC subA cnt repl maxR (made + sr.2) rest with
        | .error e => Except.error e
        | .ok rr => .ok (sr.1 :: rr.1, rr.2)

/-- `RegexProcessor.replace_in_text` (without an exclude pattern).
`subC repl k s` is the engine's `sub(pattern, repl, s, count=k)`,
`subA repl s` its unlimited `sub`, `cnt s` its `len(findall(pattern, s))`;
each is an `Except` so that a non-compiling pattern raises.  The
dollar-numeral normalization of the replacement happens first,
unconditionally; an engine error anywhere is caught and yields
`(text, 0)`. -/
def replace_in_text (subC : List Char → Nat → List Char → Except String (List Char))
    (subA : List Char → List Char → Except String (List Char))
    (cnt : List Char → Except String Nat)
    (ignore_tags : Bool) (max_replacements : Nat)
    (replacement text : List Char) : List Char × Nat :=
  let repl := dollarNorm replacement
  let body : Except String (List Char × Nat) :=
    if ignore_tags then
      let segs := (extract_text_segments text).1
      let tags := (extract_text_segments text).2
      match replaceSegsE subC subA cnt repl max_replacements 0 segs with
      | .error e => Except.error e
      | .ok r => .ok (reconstruct_text r.1 tags, r.2)
    else
      match (if 0 < max_replacements then subC repl max_replacements text
          else subA repl text) with
      | .error e => Except.error e
      | .ok nt =>
        match cnt text with
        | .error e => Except.error e
        | .ok c =>
          .ok (nt, if 0 < max_replacements then min c max_replacements else c)
  match body with
  | .ok r => r
  | .error _ => (text, 0)

/-- `RegexProcessor.validate_pattern`: the compile outcome becomes
`(True, "")` on success and `(False, message)` on failure. -/
def validate_pattern (compile : Except String Unit) : Bool × String :=
  match compile with
  | .ok _ => (true, "")
  | .error e => (false, e)

/-! ### Concrete engine behaviours for the patterns of the spec examples -/

/-- `finditer` for a single-character literal pattern. -/
def finditerCharF : Nat → Char → List Char → Nat → List (Nat × Nat)
  | 0, _, _, _ => []
  | _ + 1, _, [], _ => []
  | fuel + 1, p, c :: cs, pos =>
    if c = p then (pos, pos + 1) :: finditerCharF fuel p cs (pos + 1)
    else finditerCharF fuel p cs (pos + 1)

/-- Leading-substring test for lists of characters. -/
def isPrefixL : List Char → List Char → Bool
  | [], _ => true
  | _ :: _, [] => false
  | a :: as, b :: bs => if a = b then isPrefixL as bs else false

/-- `finditer` for a non-empty literal-substring pattern: leftmost,
non-overlapping, resuming after each match. -/
def finditerLitF : Nat → List Char → List Char → Nat → List (Nat × Nat)
  | 0, _, _, _ => []
  | _ + 1, _, [], _ => []
  | fuel + 1, pat, c :: cs, pos =>
    if isPrefixL pat (c :: cs) then
      (pos, pos + pat.length) :: finditerLitF fuel pat ((c :: cs).drop pat.length) (pos + pat.length)
    else finditerLitF fuel pat cs (pos + 1)

/-- `finditer` for a non-empty literal-substring pattern. -/
def finditerLit (pat s : List Char) : List (Nat × Nat) :=
  finditerLitF s.length pat s 0

/-- `finditer` for `\d+` (ASCII digits): maximal digit runs. -/
def finditerDigitsF : Nat → List Char → Nat → List (Nat × Nat)
  | 0, _, _ => []
  | _ + 1, [], _ => []
  | fuel + 1, c :: cs, pos =>
    if c.isDigit then
      let d := digitsRun (c :: cs)
      (pos, pos + d) :: finditerDigitsF fuel ((c :: cs).drop d) (pos + d)
    else finditerDigitsF fuel cs (pos + 1)

/-- `finditer` for `\d+`. -/
def finditerDigits (s : List Char) : List (Nat × Nat) :=
  finditerDigitsF s.length s 0

/-- Anchored `match` of the exclude pattern `19\d{2}|20\d{2}` against a
matched text: succeeds iff one alternative matches a prefix. -/
def excludeYear : List Char → Bool
  | '1' :: '9' :: a :: b :: _ => a.isDigit && b.isDigit
  | '2' :: '0' :: a :: b :: _ => a.isDigit && b.isDigit
  | _ => false

/-- Unlimited `sub` for a single-character literal pattern with a literal
replacement template. -/
def subCharAll (p : Char) (repl : List Char) : List Char → List Char
  | [] => []
  | c :: cs => if c = p then repl ++ subCharAll p repl cs else c :: subCharAll p repl cs

/-- `sub` with `count=k` for a single-character literal pattern. -/
def subCharCount (p : Char) (repl : List Char) : Nat → List Char → List Char
  | 0, s => s
  | _ + 1, [] => []
  | k + 1, c :: cs =>
    if c = p then repl ++ subCharCount p repl k cs
    else c :: subCharCount p repl (k + 1) cs

/-- `len(findall(pattern, s))` for a single-character literal pattern. -/
def countChar (p : Char) : List Char → Nat
  | [] => 0
  | c :: cs => (if c = p then 1 else 0) + countChar p cs

/-- The single-character-pattern engine, total (pattern compiles). -/
def charSubC (p : Char) : List Char → Nat → List Char → Except String (List Char) :=
  fun repl k s => .ok (subCharCount p repl k s)

/-- The single-character-pattern engine, unlimited `sub`. -/
def charSubA (p : Char) : List Char → List Char → Except String (List Char) :=
  fun repl s => .ok (subCharAll p repl s)

/-- The single-character-pattern engine, `findall` count. -/
def charCnt (p : Char) : List Char → Except String Nat :=
  fun s => .ok (countChar p s)

/-- `\w` over ASCII: letters, digits, underscore. -/
def isWord (c : Char) : Bool :=
  c.isAlpha || c.isDigit || c = '_'

/-- Template application for a two-group match of `(\w)(\w)`: `\1` and
`\2` in the (already normalized) replacement template are the two
captured characters. -/
def applyTmplTwo (g1 g2 : Char) : List Char → List Char
  | '\\' :: '1' :: rest => g1 :: applyTmplTwo g1 g2 rest
  | '\\' :: '2' :: rest => g2 :: applyTmplTwo g1 g2 rest
  | c :: rest => c :: applyTmplTwo g1 g2 rest
  | [] => []

/-- Unlimited `sub` for pattern `(\w)(\w)`. -/
def subWWAll (tmpl : List Char) : List Char → List Char
  | c1 :: c2 :: rest =>
    if isWord c1 && isWord c2 then applyTmplTwo c1 c2 tmpl ++ subWWAll tmpl rest
    else c1 :: subWWAll tmpl (c2 :: rest)
  | s => s

/-- `sub` with `count=k` for pattern `(\w)(\w)`. -/
def subWWCount (tmpl : List Char) : Nat → List Char → List Char
  | 0, s => s
  | k + 1, c1 :: c2 :: rest =>
    if isWord c1 && isWord c2 then applyTmplTwo c1 c2 tmpl ++ subWWCount tmpl k rest
    else c1 :: subWWCount tmpl (k + 1) (c2 :: rest)
  | _ + 1, s => s

/-- `len(findall(pattern, s))` for pattern `(\w)(\w)`. -/
def countWW : List Char → Nat
  | c1 :: c2 :: rest =>
    if isWord c1 && isWord c2 then 1 + countWW rest else countWW (c2 :: rest)
  | _ => 0

/-- The `(\w)(\w)` engine. -/
def wwSubC : List Char → Nat → List Char → Except String (List Char) :=
  fun tmpl k s => .ok (subWWCount tmpl k s)

/-- The `(\w)(\w)` engine, unlimited `sub`. -/
def wwSubA : List Char → List Char → Except String (List Char) :=
  fun tmpl s => .ok (subWWAll tmpl s)

/-- The `(\w)(\w)` engine, `findall` count (`findall` with groups returns
one tuple per match). -/
def wwCnt : List Char → Except String Nat :=
  fun s => .ok (countWW s)

/-- A pattern the engine fails to compile: every operation raises. -/
def failFi (msg : String) : List Char → Except String (List (Nat × Nat)) :=
  fun _ => .error msg

/-- Failing engine, `sub` with count. -/
def failSubC (msg : String) : List Char → Nat → List Char → Except String (List Char) :=
  fun _ _ _ => .error msg

/-- Failing engine, unlimited `sub`. -/
def failSubA (msg : String) : List Char → List Char → Except String (List Char) :=
  fun _ _ => .error msg

/-- Failing engine, `findall` count. -/
def failCnt (msg : String) : List Char → Except String Nat :=
  fun _ => .error msg

/-! ### Predicates used to state the amended claims -/

/-- Walks the text exactly like `extractLoopF`; `b` records whether the
pending gap is non-empty.  Returns `true` iff every recognized tag is
immediately preceded by at least one plain character, i.e. iff the
extraction loop never discards an empty gap in front of a tag. -/
def alignedF : Nat → List Char → Bool → Bool
  | _, [], _ => true
  | 0, _ :: _, _ => true
  | fuel + 1, c :: cs, b =>
    match tryTag (c :: cs) with
    | some n => b && alignedF fuel ((c :: cs).drop n) false
    | none => alignedF fuel cs true

/-- `alignedChars s`: no recognized tag of `s` starts at position 0 or
immediately after another recognized tag. -/
def alignedChars (s : List Char) : Bool :=
  alignedF s.length s false

/-- The geometry produced by an aligned extraction: the first segment
starts at original position `p`, and each tag span `(start, end, lit)`
sits exactly between its preceding segment and the rest. -/
inductive Layout : Nat → List (List Char) → List (Nat × Nat × List Char) → Prop
  | nil (p : Nat) : Layout p [] []
  | last (p : Nat) (s : List Char) : Layout p [s] []
  | cons (p : Nat) (s lit : List Char) (ss : List (List Char))
      (ts : List (Nat × Nat × List Char))
      (h : Layout (p + s.length + lit.length) ss ts) :
      Layout p (s :: ss)
        ((p + s.length, p + s.length + lit.length, lit) :: ts)

/-- A plain-view span `[s, e)` lies inside a single segment of the list:
inside the first segment, or strictly beyond it and inside a single later
segment.  (Strictness mirrors `_map_to_original_position`, whose `>=`
test attributes a position on the boundary of two segments to the earlier
one.) -/
def inSeg : List (List Char) → Nat → Nat → Bool
  | [], _, _ => false
  | seg :: rest, s, e =>
    decide (e ≤ seg.length) ||
      (decide (seg.length < s) && inSeg rest (s - seg.length) (e - seg.length))

/-- Two half-open spans `[s1, e1)` and `[s2, e2)` have a non-empty
intersection. -/
def spansIntersect (s1 e1 s2 e2 : Nat) : Bool :=
  decide (max s1 s2 < min e1 e2)

/-! ### Concrete inputs used by the spec's examples, as character lists -/

/-- Input of the reconstruction counterexample. -/
def strTagFirst : List Char := ("<a>x").toList

/-- An aligned input: every tag is preceded by a non-empty text run. -/
def strAligned : List Char := ("a<b>c").toList

/-- Input of the cross-tag-match counterexample. -/
def strCross : List Char := ("ab<t>cd").toList

/-- The literal pattern of the cross-tag-match counterexample. -/
def patBC : List Char := ("bc").toList

/-- An aligned two-segment input. -/
def strTwoSeg : List Char := ("a<t>bc").toList

/-- Input of the replacement-count evaluation. -/
def strOneA : List Char := ("a").toList

/-- Replacement character list `b`. -/
def replB : List Char := ("b").toList

/-- The tag-preservation example input. -/
def strHello : List Char := ("Hello <b>world</b>!").toList

/-- Replacement character list `0`. -/
def replZero : List Char := ("0").toList

/-- The tag-preservation example output. -/
def strHelloOut : List Char := ("Hell0 <b>w0rld</b>!").toList

/-- The max-replacements example input. -/
def strAAAA : List Char := ("aaaa").toList

/-- The max-replacements example output. -/
def strBBAA : List Char := ("bbaa").toList

/-- The exclude-veto example input. -/
def strYears : List Char := ("in 1999 there were 42 items").toList

/-- The backreference example input. -/
def strAB : List Char := ("ab").toList

/-- The dollar-numeral replacement template of the backreference example. -/
def tmplDollar : List Char := ("$1-$2").toList

/-- The backreference example output. -/
def strADashB : List Char := ("a-b").toList

/-- Two adjacent tags and no text runs. -/
def strAdjTags : List Char := ("<a><b>").toList

/-- A tag followed by a single text run. -/
def strTagThenA : List Char := ("<x>a").toList

/-- A plain input with no tags. -/
def strABC : List Char := ("abc").toList

/-- Replacement character list `r`. -/
def replR : List Char := ("r").toList

/-- A one-character plain input. -/
def strX : List Char := ("x").toList

/-- A compile diagnostic produced by the engine for an invalid pattern. -/
def msgBad : String := ("bad pattern")

/-! ### Bounds on the tag recognizers -/

theorem angleAux_bound :
    ∀ (cs : List Char) (n : Nat), angleAux cs = some n → 1 ≤ n ∧ n ≤ cs.length := by
  intro cs
  induction cs with
  | nil => intro n h; simp [angleAux] at h
  | cons c cs ih =>
    intro n h
    simp only [angleAux] at h
    split at h
    · simp only [Option.some.injEq] at h
      simp [← h]
    · split at h
      · simp at h
      · cases ha : angleAux cs with
        | none => rw [ha] at h; simp at h
        | some m =>
          rw [ha] at h
          simp only [Option.map_some', Option.some.injEq] at h
          have := ih m ha
          simp only [List.length_cons]
          omega

theorem tryAngle_bound {cs : List Char} {n : Nat} (h : tryAngle cs = some n) :
    1 ≤ n ∧ n ≤ cs.length := by
  rw [tryAngle.eq_def] at h
  split at h
  · rename_i rest
    cases ha : angleAux rest with
    | none => rw [ha] at h; simp at h
    | some m =>
      rw [ha] at h
      simp only [Option.map_some', Option.some.injEq] at h
      have := angleAux_bound rest m ha
      simp only [List.length_cons]
      omega
  · simp at h

theorem lettersRun_le : ∀ cs : List Char, lettersRun cs ≤ cs.length := by
  intro cs
  induction cs with
  | nil => simp [lettersRun]
  | cons c cs ih =>
    simp only [lettersRun, List.length_cons]
    split <;> omega

theorem digitsRun_le : ∀ cs : List Char, digitsRun cs ≤ cs.length := by
  intro cs
  induction cs with
  | nil => simp [digitsRun]
  | cons c cs ih =>
    simp only [digitsRun, List.length_cons]
    split <;> omega

theorem drop_cons_le {cs t : List Char} {l : Nat} {c : Char}
    (h : cs.drop l = c :: t) : l + 1 ≤ cs.length := by
  have := congrArg List.length h
  simp only [List.length_drop, List.length_cons] at this
  omega

theorem tryEntity_bound {cs : List Char} {n : Nat} (h : tryEntity cs = some n) :
    1 ≤ n ∧ n ≤ cs.length := by
  rw [tryEntity.eq_def] at h
  split at h
  · rename_i rest
    split at h
    · split at h
      · rename_i heq
        simp only [Option.some.injEq] at h
        have := drop_cons_le heq
        simp only [List.length_cons]
        omega
      · simp at h
    · split at h
      · split at h
        · split at h
          · rename_i heq
            simp only [Option.some.injEq] at h
            have := drop_cons_le heq
            simp only [List.length_cons]
            omega
          · simp at h
        · simp at h
      · simp at h
  · simp at h

theorem tryEntityTwo_bound {cs : List Char} {n : Nat} (h : tryEntityTwo cs = some n) :
    1 ≤ n ∧ n ≤ cs.length := by
  rw [tryEntityTwo.eq_def] at h
  split at h
  · simp only [Option.some.injEq] at h
    simp [← h]
  · simp only [Option.some.injEq] at h
    simp [← h]
  · simp only [Option.some.injEq] at h
    simp [← h]
  · simp only [Option.some.injEq] at h
    simp [← h]
  · split at h
    · split at h
      · rename_i heq
        simp only [Option.some.injEq] at h
        have := drop_cons_le heq
        simp only [List.length_cons]
        omega
      · simp at h
    · simp at h
  · simp at h

theorem onceAuxF_bound :
    ∀ (fuel : Nat) (cs : List Char) (n : Nat), onceAuxF fuel cs = some n →
      1 ≤ n ∧ n ≤ cs.length := by
  intro fuel
  induction fuel with
  | zero =>
    intro cs n h
    rw [onceAuxF.eq_def] at h
    split at h
    · simp only [Option.some.injEq] at h
      simp [← h]
    · omega
    · simp at h
  | succ fuel ih =>
    intro cs n h
    rw [onceAuxF.eq_def] at h
    split at h
    · simp only [Option.some.injEq] at h
      simp [← h]
    · rename_i fuel2 c rest hne hsucc
      have hf : fuel2 = fuel := by omega
      subst hf
      split at h
      · cases hent : tryEntity (c :: rest) with
        | none => simp [hent] at h
        | some m =>
          simp only [hent] at h
          cases ho : onceAuxF fuel2 (List.drop m (c :: rest)) with
          | none => simp [ho] at h
          | some k =>
            simp only [ho, Option.map_some', Option.some.injEq] at h
            have h1 := tryEntity_bound hent
            have h2 := ih _ k ho
            have h3 : (List.drop m (c :: rest)).length = (c :: rest).length - m := by
              rw [List.length_drop]
            simp only [List.length_cons] at h1 h3 ⊢
            omega
      · cases ho : onceAuxF fuel2 rest with
        | none => simp [ho] at h
        | some k =>
          simp only [ho, Option.map_some', Option.some.injEq] at h
          have := ih rest k ho
          simp only [List.length_cons]
          omega
    · simp at h

set_option maxHeartbeats 1000000 in
theorem twiceAuxF_bound :
    ∀ (fuel : Nat) (cs : List Char) (n : Nat), twiceAuxF fuel cs = some n →
      1 ≤ n ∧ n ≤ cs.length := by
  intro fuel
  induction fuel with
  | zero =>
    intro cs n h
    rw [twiceAuxF.eq_def] at h
    split at h
    · simp only [Option.some.injEq] at h
      simp [← h]
    · omega
    · simp at h
  | succ fuel ih =>
    intro cs n h
    rw [twiceAuxF.eq_def] at h
    split at h
    · simp only [Option.some.injEq] at h
      simp [← h]
    · rename_i fuel2 c rest hne hsucc
      have hf : fuel2 = fuel := by omega
      subst hf
      split at h
      · cases hent : tryEntityTwo (c :: rest) with
        | none => simp [hent] at h
        | some m =>
          simp only [hent] at h
          cases ho : twiceAuxF fuel2 (List.drop m (c :: rest)) with
          | none => simp [ho] at h
          | some k =>
            simp only [ho, Option.map_some', Option.some.injEq] at h
            have h1 := tryEntityTwo_bound hent
            have h2 := ih _ k ho
            have h3 : (List.drop m (c :: rest)).length = (c :: rest).length - m := by
              rw [List.length_drop]
            simp only [List.length_cons] at h1 h3 ⊢
            omega
      · cases ho : twiceAuxF fuel2 rest with
        | none => simp [ho] at h
        | some k =>
          simp only [ho, Option.map_some', Option.some.injEq] at h
          have := ih rest k ho
          simp only [List.length_cons]
          omega
    · simp at h

theorem tryOnce_bound {cs : List Char} {n : Nat} (h : tryOnce cs = some n) :
    1 ≤ n ∧ n ≤ cs.length := by
  rw [tryOnce.eq_def] at h
  split at h
  · rename_i rest
    cases ho : onceAuxF rest.length rest with
    | none => simp only [ho] at h; simp at h
    | some k =>
      simp only [ho, Option.map_some', Option.some.injEq] at h
      have := onceAuxF_bound rest.length rest k ho
      simp only [List.length_cons]
      omega
  · simp at h

theorem tryTwice_bound {cs : List Char} {n : Nat} (h : tryTwice cs = some n) :
    1 ≤ n ∧ n ≤ cs.length := by
  rw [tryTwice.eq_def] at h
  split at h
  · rename_i rest
    cases ho : twiceAuxF rest.length rest with
    | none => simp only [ho] at h; simp at h
    | some k =>
      simp only [ho, Option.map_some', Option.some.injEq] at h
      have := twiceAuxF_bound rest.length rest k ho
      simp only [List.length_cons]
      omega
  · simp at h

theorem tryTag_bound {cs : List Char} {n : Nat} (h : tryTag cs = some n) :
    1 ≤ n ∧ n ≤ cs.length := by
  unfold tryTag at h
  cases ha : tryAngle cs with
  | some m => rw [ha] at h; cases h; exact tryAngle_bound ha
  | none =>
    rw [ha] at h
    cases ho : tryOnce cs with
    | some m => rw [ho] at h; cases h; exact tryOnce_bound ho
    | none =>
      rw [ho] at h
      exact tryTwice_bound h


/-! ### Extraction lemmas -/

theorem isEmpty_false_iff {l : List Char} : l.isEmpty = false ↔ l ≠ [] := by
  cases l <;> simp [List.isEmpty]

theorem extractLoopF_segs_ne_nil :
    ∀ (fuel : Nat) (cs : List Char) (pos : Nat) (gap : List Char) (seg : List Char),
      seg ∈ (extractLoopF fuel cs pos gap).1 → seg ≠ [] := by
  intro fuel cs pos gap
  induction fuel, cs, pos, gap using extractLoopF.induct with
  | case1 t pos gap =>
    intro seg hm
    simp only [extractLoopF] at hm
    split at hm
    · simp at hm
    · rename_i hg
      rw [List.mem_singleton] at hm
      subst hm
      simp only [ne_eq, List.reverse_eq_nil_iff]
      exact isEmpty_false_iff.mp (by simpa using hg)
  | case2 c cs pos gap =>
    intro seg hm
    simp only [extractLoopF] at hm
    split at hm
    · simp at hm
    · rename_i hg
      rw [List.mem_singleton] at hm
      subst hm
      simp only [ne_eq, List.reverse_eq_nil_iff]
      exact isEmpty_false_iff.mp (by simpa using hg)
  | case3 fuel c cs pos gap n htag ih =>
    intro seg hm
    simp only [extractLoopF, htag] at hm
    split at hm
    · exact ih seg hm
    · rename_i hg
      rw [List.mem_cons] at hm
      rcases hm with hm | hm
      · subst hm
        simp only [ne_eq, List.reverse_eq_nil_iff]
        exact isEmpty_false_iff.mp (by simpa using hg)
      · exact ih seg hm
  | case4 fuel c cs pos gap htag ih =>
    intro seg hm
    simp only [extractLoopF, htag] at hm
    exact ih seg hm

theorem extractLoopF_reconstruct :
    ∀ (fuel : Nat) (cs : List Char) (pos : Nat) (gap : List Char),
      cs.length ≤ fuel → alignedF fuel cs (!gap.isEmpty) = true →
      reconstruct_text (extractLoopF fuel cs pos gap).1 (extractLoopF fuel cs pos gap).2
        = gap.reverse ++ cs := by
  intro fuel cs pos gap
  induction fuel, cs, pos, gap using extractLoopF.induct with
  | case1 t pos gap =>
    intro _ _
    simp only [extractLoopF]
    split
    · rename_i hg
      have : gap = [] := by simpa [List.isEmpty_iff] using hg
      subst this
      simp [reconstruct_text]
    · simp [reconstruct_text]
  | case2 c cs pos gap =>
    intro hlen _
    simp at hlen
  | case3 fuel c cs pos gap n htag ih =>
    intro hlen hal
    obtain ⟨hn1, hn2⟩ := tryTag_bound htag
    simp only [alignedF, htag, Bool.and_eq_true] at hal
    obtain ⟨hg, hal⟩ := hal
    have hg2 : gap.isEmpty = false := by
      cases hq : gap.isEmpty
      · rfl
      · rw [hq] at hg; simp at hg
    simp only [extractLoopF, htag, hg2]
    have hlen2 : (List.drop n (c :: cs)).length ≤ fuel := by
      rw [List.length_drop]
      simp only [List.length_cons] at hlen ⊢
      omega
    have hIH := ih hlen2 (by simpa using hal)
    simp only [Bool.false_eq_true, if_false, reconstruct_text, hIH]
    simp [List.take_append_drop]
  | case4 fuel c cs pos gap htag ih =>
    intro hlen hal
    simp only [alignedF, htag] at hal
    have hlen2 : cs.length ≤ fuel := by
      simp only [List.length_cons] at hlen
      omega
    have hIH := ih hlen2 (by simpa using hal)
    simp only [extractLoopF, htag, hIH]
    simp

theorem Layout.consAB (p a b : Nat) (s lit : List Char) (ss : List (List Char))
    (ts : List (Nat × Nat × List Char))
    (ha : a = p + s.length) (hb : b = a + lit.length)
    (h : Layout b ss ts) : Layout p (s :: ss) ((a, b, lit) :: ts) := by
  subst ha
  subst hb
  exact Layout.cons p s lit ss ts h

theorem extractLoopF_layout :
    ∀ (fuel : Nat) (cs : List Char) (pos : Nat) (gap : List Char),
      cs.length ≤ fuel → gap.length ≤ pos → alignedF fuel cs (!gap.isEmpty) = true →
      Layout (pos - gap.length) (extractLoopF fuel cs pos gap).1
        (extractLoopF fuel cs pos gap).2 := by
  intro fuel cs pos gap
  induction fuel, cs, pos, gap using extractLoopF.induct with
  | case1 t pos gap =>
    intro _ _ _
    simp only [extractLoopF]
    split
    · exact Layout.nil _
    · exact Layout.last _ _
  | case2 c cs pos gap =>
    intro hlen _ _
    simp at hlen
  | case3 fuel c cs pos gap n htag ih =>
    intro hlen hgp hal
    obtain ⟨hn1, hn2⟩ := tryTag_bound htag
    simp only [alignedF, htag, Bool.and_eq_true] at hal
    obtain ⟨hg, hal⟩ := hal
    have hg2 : gap.isEmpty = false := by
      cases hq : gap.isEmpty
      · rfl
      · rw [hq] at hg; simp at hg
    simp only [extractLoopF, htag, hg2]
    have hlen2 : (List.drop n (c :: cs)).length ≤ fuel := by
      rw [List.length_drop]
      simp only [List.length_cons] at hlen ⊢
      omega
    have hIH := ih hlen2 (by simp) (by simpa using hal)
    simp only [Nat.sub_zero] at hIH
    simp only [Bool.false_eq_true, if_false]
    refine Layout.consAB _ _ _ _ _ _ _ ?ha ?hb hIH
    case ha =>
      rw [List.length_reverse]
      omega
    case hb =>
      rw [List.length_take]
      simp only [List.length_cons] at hn2 ⊢
      omega
  | case4 fuel c cs pos gap htag ih =>
    intro hlen hgp hal
    simp only [alignedF, htag] at hal
    have hlen2 : cs.length ≤ fuel := by
      simp only [List.length_cons] at hlen
      omega
    have hIH := ih hlen2 (by simp only [List.length_cons]; omega) (by simpa using hal)
    simp only [extractLoopF, htag]
    have he : pos + 1 - (c :: gap).length = pos - gap.length := by
      simp only [List.length_cons]
      omega
    rw [he] at hIH
    exact hIH


/-! ### Position-mapping lemmas -/

theorem mapPosAux_shift :
    ∀ (ss : List (List Char)) (ts : List (Nat × Nat × List Char)) (q cc op : Nat),
      cc ≤ q → mapPosAux q ss ts cc op = mapPosAux (q - cc) ss ts 0 op := by
  intro ss
  induction ss with
  | nil => intro ts q cc op _; simp [mapPosAux]
  | cons seg rest ih =>
    intro ts q cc op hcc
    by_cases hc : q ≤ cc + seg.length
    · simp only [mapPosAux]
      rw [if_pos hc, if_pos (by omega)]
      omega
    · simp only [mapPosAux]
      rw [if_neg hc, if_neg (by omega)]
      rw [ih ts.tail q (cc + seg.length) _ (by omega)]
      rw [ih ts.tail (q - cc) (0 + seg.length) _ (by omega)]
      have he : q - (cc + seg.length) = q - cc - (0 + seg.length) := by omega
      rw [he]

theorem mapPosAux_ge :
    ∀ (ss : List (List Char)) (ts : List (Nat × Nat × List Char)) (q cc op : Nat),
      op ≤ mapPosAux q ss ts cc op := by
  intro ss
  induction ss with
  | nil => intro ts q cc op; simp [mapPosAux]
  | cons seg rest ih =>
    intro ts q cc op
    simp only [mapPosAux]
    split
    · omega
    · exact le_trans (by omega) (ih _ _ _ _)

theorem mapPosAux_start {q : Nat} {seg : List Char} {rest : List (List Char)}
    {ts : List (Nat × Nat × List Char)} {p : Nat} (h : q ≤ seg.length) :
    mapPosAux q (seg :: rest) ts 0 p = p + q := by
  simp only [mapPosAux]
  rw [if_pos (by omega)]
  omega

theorem mapPosAux_step {q : Nat} {seg : List Char} {rest : List (List Char)}
    {a b : Nat} {lit : List Char} {ts2 : List (Nat × Nat × List Char)} {p : Nat}
    (h : seg.length < q) :
    mapPosAux q (seg :: rest) ((a, b, lit) :: ts2) 0 p
      = mapPosAux (q - seg.length) rest ts2 0 (p + seg.length + lit.length) := by
  simp only [mapPosAux]
  rw [if_neg (by omega)]
  rw [mapPosAux_shift _ _ _ _ _ (by omega)]
  have he : q - (0 + seg.length) = q - seg.length := by omega
  rw [he]
  rfl

theorem layout_tag_ge {p : Nat} {ss : List (List Char)}
    {ts : List (Nat × Nat × List Char)} (h : Layout p ss ts) :
    ∀ tg ∈ ts, p ≤ tg.1 := by
  induction h with
  | nil => intro tg htg; simp at htg
  | last => intro tg htg; simp at htg
  | cons p s lit ss ts h ih =>
    intro tg htg
    rcases List.mem_cons.mp htg with rfl | htg2
    · simp
    · have := ih tg htg2
      omega

theorem mapPos_no_tag_overlap :
    ∀ (ss : List (List Char)) (ts : List (Nat × Nat × List Char)) (p s e : Nat),
      Layout p ss ts → s ≤ e → inSeg ss s e = true →
      ∀ tg ∈ ts,
        spansIntersect (mapPosAux s ss ts 0 p) (mapPosAux e ss ts 0 p)
          tg.1 tg.2.1 = false := by
  intro ss
  induction ss with
  | nil =>
    intro ts p s e _ _ hin
    simp [inSeg] at hin
  | cons seg rest ih =>
    intro ts p s e hlay hse hin tg htg
    simp only [inSeg, Bool.or_eq_true, Bool.and_eq_true, decide_eq_true_eq] at hin
    rcases hin with hin | ⟨hlt, hin⟩
    · rw [mapPosAux_start (by omega), mapPosAux_start (by omega)]
      cases hlay with
      | last => simp at htg
      | cons _ _ lit _ ts2 h2 =>
        rcases List.mem_cons.mp htg with rfl | htg2
        · simp only [spansIntersect, decide_eq_false_iff_not]
          omega
        · have := layout_tag_ge h2 tg htg2
          simp only [spansIntersect, decide_eq_false_iff_not]
          omega
    · cases hlay with
      | last => simp [inSeg] at hin
      | cons _ _ lit _ ts2 h2 =>
        rw [mapPosAux_step (by omega), mapPosAux_step (by omega)]
        rcases List.mem_cons.mp htg with rfl | htg2
        · have hge := mapPosAux_ge rest ts2 (s - seg.length) 0 (p + seg.length + lit.length)
          have hge2 := mapPosAux_ge rest ts2 (e - seg.length) 0 (p + seg.length + lit.length)
          simp only [spansIntersect, decide_eq_false_iff_not]
          omega
        · exact ih ts2 (p + seg.length + lit.length) (s - seg.length) (e - seg.length)
            h2 (by omega) hin tg htg2


/-! ### Extraction geometry of an aligned input -/

theorem extract_layout (s : List Char) (h : alignedChars s = true) :
    Layout 0 (extract_text_segments s).1 (extract_text_segments s).2 := by
  have hl := extractLoopF_layout s.length s 0 [] (le_refl _) (by simp)
    (by simpa [alignedChars] using h)
  simpa [extract_text_segments] using hl

/-- With an engine whose operations all raise, the per-segment loop
raises as soon as it reaches a segment. -/
theorem replaceSegsE_fail (repl : List Char) (maxR made : Nat) (seg : List Char)
    (rest : List (List Char)) (h : ¬(0 < maxR ∧ maxR ≤ made)) :
    replaceSegsE (failSubC msgBad) (failSubA msgBad) (failCnt msgBad)
      repl maxR made (seg :: rest) = Except.error msgBad := by
  simp only [replaceSegsE]
  rw [if_neg h]
  by_cases hcl : 0 < (if 0 < (if 0 < maxR then maxR - made else 0)
      then (if 0 < maxR then maxR - made else 0) else 0)
  · rw [if_pos hcl]
    rfl
  · rw [if_neg hcl]
    rfl

/-! ### The claims -/

/-- Claim C1, counterexample: on the input `<a>x` the extraction loop
discards the empty gap before the leading tag
(`if match.start() > current_pos` fails), so reconstruction interleaves
segment `x` with tag `<a>` in the wrong order and yields `x<a>`, not the
original string.  The reconstruction identity claimed for every input
string fails here. -/
theorem c1_counterexample :
    reconstruct_text (extract_text_segments strTagFirst).1
      (extract_text_segments strTagFirst).2 ≠ strTagFirst := by
  decide

/-- Claim C1, amended: reconstruction from the extraction result yields
exactly the input for every input in which each recognized tag is
immediately preceded by at least one plain character (so the extraction
loop never drops an empty segment in front of a tag). -/
theorem c1_reconstruct_aligned (s : List Char) (h : alignedChars s = true) :
    reconstruct_text (extract_text_segments s).1 (extract_text_segments s).2 = s := by
  have hr := extractLoopF_reconstruct s.length s 0 [] (le_refl _)
    (by simpa [alignedChars] using h)
  simpa [extract_text_segments] using hr

/-- Witness for the amended C1 at the aligned input `a<b>c`. -/
theorem c1_witness :
    reconstruct_text (extract_text_segments strAligned).1
      (extract_text_segments strAligned).2 = strAligned :=
  c1_reconstruct_aligned strAligned (by decide)

/-- Claim C2, counterexample: searching `ab<t>cd` for the literal pattern
`bc` with `ignore_tags=true` matches `bc` across the tag boundary in the
plain view `abcd` and reports the original-coordinate span `[1, 6)`,
which intersects the tag span `[2, 5)` of `<t>`: the claimed empty
intersection with every tag span fails. -/
theorem c2_counterexample :
    find_in_text (fun p => Except.ok (finditerLit patBC p)) none strCross
      = [(1, 6, patBC)] ∧
    (extract_text_segments strCross).2 = [(2, 5, ('<' :: 't' :: ['>']))] ∧
    spansIntersect 1 6 2 5 = true := by
  decide

/-- Claim C2, amended: on an input where every recognized tag is preceded
by a non-empty text run, every match whose plain-view span lies inside a
single text segment (inside the first segment, or strictly inside a later
one - a match starting exactly at a later segment boundary is mapped into
the preceding tag) is reported with an original-coordinate span whose
intersection with every tag span is empty. -/
theorem c2_no_tag_overlap_amended
    (fi : List Char → Except String (List (Nat × Nat)))
    (ex : Option (List Char → Bool)) (text : List Char)
    (ms : List (Nat × Nat))
    (hal : alignedChars text = true)
    (hfi : fi (joinAll (extract_text_segments text).1) = Except.ok ms)
    (hms : ∀ se ∈ ms, se.1 ≤ se.2 ∧
      inSeg (extract_text_segments text).1 se.1 se.2 = true) :
    ∀ r ∈ find_in_text fi ex text, ∀ tg ∈ (extract_text_segments text).2,
      spansIntersect r.1 r.2.1 tg.1 tg.2.1 = false := by
  intro r hr tg htg
  have hlay := extract_layout text hal
  simp only [find_in_text, hfi] at hr
  rw [List.mem_filterMap] at hr
  obtain ⟨se, hmem, hf⟩ := hr
  obtain ⟨hse, hin⟩ := hms se hmem
  split at hf
  · simp at hf
  · simp only [Option.some.injEq] at hf
    subst hf
    exact mapPos_no_tag_overlap _ _ 0 se.1 se.2 hlay hse hin tg htg

/-- Witness for the amended C2: on `a<t>bc` a match at plain-view span
`[2, 3)` lies strictly inside the second segment; it is reported as
`(5, 6, c)` and its span does not intersect the tag span `[1, 4)`. -/
theorem c2_witness : spansIntersect 5 6 1 4 = false :=
  c2_no_tag_overlap_amended (fun _ => Except.ok [(2, 3)]) none strTwoSeg
    [(2, 3)] (by decide) rfl (by decide) (5, 6, ('c' :: [])) (by decide)
    (1, 4, ('<' :: 't' :: ['>'])) (by decide)

/-- Claim C3, code bug: `replace_in_text("a", pattern a, replacement b,
ignore_tags=true, max_replacements=3)` returns count `3` although the
single segment contains exactly one match and one substitution is
performed: the budgeted branch adds `count_limit` itself
(`replacements = count_limit`) instead of the number of substitutions
actually performed, contradicting the claimed cap by actual matches. -/
theorem c3_count_bug_eval :
    replace_in_text (charSubC 'a') (charSubA 'a') (charCnt 'a') true 3 replB strOneA
      = (replB, 3) ∧ countChar 'a' strOneA = 1 := by
  decide

/-- Claim C4: the tag-preservation example - replacing `o` by `0` in
`Hello <b>world</b>!` with `ignore_tags=true` yields
`Hell0 <b>w0rld</b>!` with count 2; the `<b>` and `</b>` literals are
untouched. -/
theorem c4_tag_preservation :
    replace_in_text (charSubC 'o') (charSubA 'o') (charCnt 'o') true 0 replZero strHello
      = (strHelloOut, 2) := by
  decide

/-- Claim C5: the max-replacements example - replacing `a` by `b` in
`aaaa` with `max_replacements=2` yields `bbaa` with count 2. -/
theorem c5_max_replacements_cap :
    replace_in_text (charSubC 'a') (charSubA 'a') (charCnt 'a') true 2 replB strAAAA
      = (strBBAA, 2) := by
  decide

/-- Claim C6: the exclude-veto example - finding `\d+` in
`in 1999 there were 42 items` with exclude pattern `19\d{2}|20\d{2}`
yields exactly the match `42` at span `[19, 21)`; `1999` is vetoed by the
anchored exclude match. -/
theorem c6_exclude_veto :
    find_in_text (fun p => Except.ok (finditerDigits p)) (some excludeYear) strYears
      = [(19, 21, ('4' :: ['2']))] := by
  decide

/-- Claim C7: the dollar-numeral replacement template `$1-$2` is
normalized to backslash backreferences before substitution, for either
value of `ignore_tags`: with pattern `(\w)(\w)` on `ab` the result is
`a-b` (count 1). -/
theorem c7_dollar_backreference :
    ∀ it : Bool, replace_in_text wwSubC wwSubA wwCnt it 0 tmplDollar strAB
      = (strADashB, 1) := by
  decide

/-- Claim C8, counterexample: on `<a><b>` (a recognized tag at position 0
followed by an adjacent recognized tag) the extraction emits no text
segment at all while recording two tag spans, so no zero-length segment
is emitted before the first tag or between the adjacent tags, and
segment/tag index correspondence fails. -/
theorem c8_counterexample :
    (extract_text_segments strAdjTags).1 = [] ∧
    (extract_text_segments strAdjTags).2.length = 2 := by
  decide

/-- Claim C8, amended: `_extract_text_segments` never emits a zero-length
segment at any position - an empty run before a tag, between adjacent
tags, or at the trailing position is always omitted, so every emitted
segment is non-empty. -/
theorem c8_no_empty_segments (s : List Char) (seg : List Char)
    (h : seg ∈ (extract_text_segments s).1) : seg ≠ [] :=
  extractLoopF_segs_ne_nil s.length s 0 [] seg h

/-- Witness for the amended C8 at the input `<x>a`. -/
theorem c8_witness : (('a' :: []) : List Char) ≠ [] :=
  c8_no_empty_segments strTagThenA ('a' :: []) (by decide)

/-- Claim C9, counterexample: with an engine that rejects the pattern
(every operation raises the compile error), `find_in_text` returns the
empty list and `replace_in_text` returns `(text, 0)` - the `except`
clauses swallow the error and both calls return normal results instead of
failing with the compile error. -/
theorem c9_counterexample :
    find_in_text (failFi msgBad) none strABC = [] ∧
    replace_in_text (failSubC msgBad) (failSubA msgBad) (failCnt msgBad)
      true 0 replR strABC = (strABC, 0) := by
  decide

/-- Claim C9, amended: for a pattern the engine fails to compile,
`validate_pattern` reports `(false, message)`, while `find_in_text`
catches the error and returns `[]`, and `replace_in_text` catches it and
returns `(text, 0)` - when `ignore_tags` is true this requires at least
one extracted text segment, since with no segments the engine is never
invoked and the reconstruction (which may differ from `text`) is returned
with count 0. -/
theorem c9_errors_swallowed (ex : Option (List Char → Bool))
    (text repl : List Char) (maxR : Nat) :
    find_in_text (failFi msgBad) ex text = [] ∧
    replace_in_text (failSubC msgBad) (failSubA msgBad) (failCnt msgBad)
      false maxR repl text = (text, 0) ∧
    ((extract_text_segments text).1 ≠ [] →
      replace_in_text (failSubC msgBad) (failSubA msgBad) (failCnt msgBad)
        true maxR repl text = (text, 0)) ∧
    validate_pattern (Except.error msgBad) = (false, msgBad) := by
  refine ⟨?_, ?_, ?_, rfl⟩
  · simp [find_in_text, failFi]
  · rcases Nat.eq_zero_or_pos maxR with rfl | h
    · rfl
    · simp only [replace_in_text]
      rw [if_pos h]
      rfl
  · intro hne
    cases hsegs : (extract_text_segments text).1 with
    | nil => exact absurd hsegs hne
    | cons seg rest =>
      simp only [replace_in_text, hsegs]
      rw [replaceSegsE_fail _ maxR 0 seg rest (by omega)]
      rfl

/-- Witness for the amended C9 at the one-segment input `x`. -/
theorem c9_witness :
    replace_in_text (failSubC msgBad) (failSubA msgBad) (failCnt msgBad)
      true 0 replR strX = (strX, 0) :=
  (c9_errors_swallowed none strX replR 0).2.2.1 (by decide)

end RegexProc
